import Mathlib

/-!
Verification of the stock-control reporting engine.

The definitions below are a shallow embedding of the analytics code of
`src/app/reports.tsx` (period filter, per-product aggregation and ranking,
consumption projector, category breakdown, general stock summary, report
assembly) and of the movement-application step of the server route
`POST /api/movements`.

Embedding conventions:
* JavaScript numbers are modelled as exact rationals.
* A timestamp (a JS `Date` value, or an ISO-8601 `createdAt` string) is
  modelled by its epoch value in milliseconds. The source sorts ISO strings
  lexicographically, which coincides with chronological order for the
  normalized fixed-width ISO strings the app stores, so date sorting is
  modelled as numeric sorting.
* A JS record (`Record<string, T>`) built by `forEach` and read back with
  `Object.entries` is modelled as an association list in key-insertion
  order with in-place accumulation, matching JS enumeration order for the
  non-numeric varchar ids the app uses.
* `filterByPeriod` in the source reads the wall clock internally
  (`new Date()`); the embedding makes that internal read explicit as the
  `clock` parameter, which is the value the source obtains from the
  environment at call time.
* JS `Array.prototype.sort` with a numeric comparator is stable; it is
  modelled by a stable insertion sort.
-/

namespace StockControl

/-- Movement type enumeration of the schema: entry or exit. -/
inductive MovType
  | entry
  | exit
deriving DecidableEq

/-- A stock movement row: id, product reference, type, quantity, creation
timestamp in epoch milliseconds (the note field plays no computational role
and is omitted). -/
structure Movement where
  id : String
  productId : String
  type : MovType
  quantity : ℚ
  createdAt : ℤ
deriving DecidableEq

/-- A catalog product: current quantity, minimum-stock threshold, unit price,
category reference. -/
structure Product where
  id : String
  name : String
  categoryId : String
  quantity : ℚ
  minStock : ℚ
  price : ℚ
deriving DecidableEq

/-- A category: static reference data. -/
structure Category where
  id : String
  name : String
  color : String
deriving DecidableEq

/-- Period selector of the reports screen. -/
inductive Period
  | d7
  | d30
  | d90
  | all
deriving DecidableEq

/-- Day count of a bounded period, none for the unbounded period; this is the
value the source computes inline both in filterByPeriod and in
consumptionData. -/
def Period.days : Period → Option ℤ
  | .d7 => some 7
  | .d30 => some 30
  | .d90 => some 90
  | .all => none

/-- Milliseconds in a day, the divisor 1000*60*60*24 of the source. -/
def msPerDay : ℤ := 1000 * 60 * 60 * 24

/-- Embedding of filterByPeriod of reports.tsx: the unbounded period returns
the input unchanged; a bounded period retains movements with
createdAt >= cutoff, where cutoff is the current time minus the period's day
count. The source obtains the current time internally via new Date();
that internal wall-clock read is the explicit clock argument here. -/
def filterByPeriod (clock : ℤ) (movements : List Movement) (period : Period) : List Movement :=
  match period.days with
  | none => movements
  | some days => movements.filter fun m => decide (clock - days * msPerDay ≤ m.createdAt)

/-- Embedding of the product-subset filter of the reports screen: when at
least one product id is selected, the movement set is restricted to those
products; otherwise it is unchanged. -/
def applyProductFilter (selectedProductIds : List String) (ms : List Movement) : List Movement :=
  if selectedProductIds.length > 0 then
    ms.filter fun m => selectedProductIds.contains m.productId
  else ms

/-- The entry partition of a movement set, filtered.filter of the source. -/
def entriesOf (ms : List Movement) : List Movement :=
  ms.filter fun m => decide (m.type = .entry)

/-- The exit partition of a movement set. -/
def exitsOf (ms : List Movement) : List Movement :=
  ms.filter fun m => decide (m.type = .exit)

/-- Embedding of the reduce computing totalEntryQty and totalExitQty: the sum
of quantities over a movement list, accumulated left to right from 0. -/
def totalQty (ms : List Movement) : ℚ :=
  ms.foldl (fun a m => a + m.quantity) 0

/-- Current catalog price of a product id, 0 when the product is absent:
the expression products.find(...)?.price ?? 0 of the source. -/
def priceOf (products : List Product) (pid : String) : ℚ :=
  ((products.find? fun p => decide (p.id = pid)).map Product.price).getD 0

/-- Embedding of the reduce computing entryValue and exitValue: the sum over
the movements of quantity times current catalog price, with 0 for movements
whose product is no longer cataloged. -/
def totalValue (products : List Product) (ms : List Movement) : ℚ :=
  ms.foldl (fun acc m => acc + m.quantity * priceOf products m.productId) 0

/-- One step of the forEach loops that build the per-product records
(Record<string, T>): the first entry with the movement's key is accumulated
in place, otherwise a fresh entry is appended, matching JS record insertion
and enumeration order for non-numeric string keys. -/
def bumpWith (init : Movement → β) (add : β → Movement → β) :
    List (String × β) → Movement → List (String × β)
  | [], m => [(m.productId, init m)]
  | (k, v) :: rest, m =>
    if k = m.productId then (k, add v m) :: rest
    else (k, v) :: bumpWith init add rest m

/-- A per-product record built by a forEach over a movement list, read back in
key-insertion order as Object.entries does. -/
def recordFold (init : Movement → β) (add : β → Movement → β) (ms : List Movement) :
    List (String × β) :=
  ms.foldl (bumpWith init add) []

/-- The record built for the rankings: per product id, the summed quantity. -/
def qtyByProduct (ms : List Movement) : List (String × ℚ) :=
  recordFold (fun m => m.quantity) (fun q m => q + m.quantity) ms

/-- Accumulator of the consumption grouping: total consumed quantity and the
list of exit timestamps in encounter order. -/
structure ExitGroup where
  total : ℚ
  dates : List ℤ
deriving DecidableEq

/-- The record built by the consumption projector: per product id, the summed
exit quantity and the pushed list of exit dates. -/
def exitsByProduct (ms : List Movement) : List (String × ExitGroup) :=
  recordFold (fun m => ⟨m.quantity, [m.createdAt]⟩)
    (fun g m => ⟨g.total + m.quantity, g.dates ++ [m.createdAt]⟩) ms

/-- Stable insertion step of the descending sort: the element moves ahead of
every element with a strictly smaller key and behind earlier elements with an
equal or larger key, as the stable JS sort with comparator (a,b) => b.key-a.key
does. -/
def insertDescBy (key : α → ℚ) (x : α) : List α → List α
  | [] => [x]
  | y :: ys => if key y ≤ key x then x :: y :: ys else y :: insertDescBy key x ys

/-- Stable descending sort by a rational key. -/
def sortDescBy (key : α → ℚ) (l : List α) : List α :=
  l.foldr (insertDescBy key) []

/-- Stable insertion step of the ascending date sort (dates.sort() of the
source, lexicographic on normalized ISO strings, hence chronological). -/
def insertAsc (x : ℤ) : List ℤ → List ℤ
  | [] => [x]
  | y :: ys => if x ≤ y then x :: y :: ys else y :: insertAsc x ys

/-- Ascending sort of a date list. -/
def sortAsc (l : List ℤ) : List ℤ :=
  l.foldr insertAsc []

/-- One row of the per-product ranking: the resolved catalog product and its
summed quantity. -/
structure RankEntry where
  product : Product
  qty : ℚ
deriving DecidableEq

/-- The ranking rows before the slice: group the movements by product id
summing quantities, resolve each id in the catalog dropping unresolved ids,
and sort descending by summed quantity (the map/filter/sort chain of
topEntryByProduct and topExitByProduct). -/
def rankingRows (ms : List Movement) (products : List Product) : List RankEntry :=
  sortDescBy (fun e => e.qty)
    ((qtyByProduct ms).filterMap fun pq =>
      (products.find? fun p => decide (p.id = pq.1)).map fun p => ⟨p, pq.2⟩)

/-- Embedding of topEntryByProduct and topExitByProduct of reports.tsx (the
two blocks are textually identical up to the input partition): the sorted
catalog-resolved rows, sliced to the first 10. -/
def topByProduct (ms : List Movement) (products : List Product) : List RankEntry :=
  (rankingRows ms products).take 10

/-- Urgency classification of a consumption row. -/
inductive Urgency
  | critical
  | warning
  | ok
deriving DecidableEq

/-- The status chain of consumptionData: critical when daysUntilEmpty is not
null and at most 7, else warning when not null and at most 30, else ok. -/
def consumptionStatus (daysUntilEmpty : Option ℤ) : Urgency :=
  match daysUntilEmpty with
  | some d => if d ≤ 7 then .critical else if d ≤ 30 then .warning else .ok
  | none => .ok

/-- One row of the consumption analysis, as consumptionData builds it. -/
structure ConsumptionEntry where
  product : Product
  category : Option Category
  totalConsumed : ℚ
  movCount : ℕ
  dailyAvg : ℚ
  monthlyProjection : ℚ
  daysUntilEmpty : Option ℤ
  status : Urgency
  costProjection : ℚ
deriving DecidableEq

/-- The body of the map in consumptionData for one grouped product: none when
the product id is no longer cataloged (the row the filter(Boolean) drops);
otherwise the projected consumption row. daySpan is the ceiling of the span
between the first and last exit date in days, floored at 1; a bounded period
overrides it with the period's day count. -/
def consumptionEntryFor (products : List Product) (categories : List Category)
    (periodDays : Option ℤ) (pid : String) (g : ExitGroup) : Option ConsumptionEntry :=
  match products.find? fun p => decide (p.id = pid) with
  | none => none
  | some product =>
    let category := categories.find? fun c => decide (c.id = product.categoryId)
    let sortedDates := sortAsc g.dates
    let firstDate := sortedDates.headD 0
    let lastDate := sortedDates.getLastD 0
    let daySpan : ℤ := max 1 (Int.ceil (((lastDate - firstDate : ℤ) : ℚ) / (msPerDay : ℚ)))
    let actualDays : ℤ := periodDays.getD daySpan
    let dailyAvg : ℚ := g.total / ((max actualDays 1 : ℤ) : ℚ)
    let monthlyProjection : ℚ := dailyAvg * 30
    let daysUntilEmpty : Option ℤ :=
      if 0 < dailyAvg then some (round (product.quantity / dailyAvg)) else none
    some
      { product := product
        category := category
        totalConsumed := g.total
        movCount := g.dates.length
        dailyAvg := dailyAvg
        monthlyProjection := monthlyProjection
        daysUntilEmpty := daysUntilEmpty
        status := consumptionStatus daysUntilEmpty
        costProjection := monthlyProjection * product.price }

/-- Embedding of consumptionData of reports.tsx: group the exit movements by
product, project each cataloged group, drop uncataloged groups, and sort
descending by total consumed quantity. -/
def consumptionData (exits : List Movement) (products : List Product)
    (categories : List Category) (period : Period) : List ConsumptionEntry :=
  sortDescBy (fun e => e.totalConsumed)
    ((exitsByProduct exits).filterMap fun pg =>
      consumptionEntryFor products categories period.days pg.1 pg.2)

/-- One row of the category breakdown. -/
structure CategoryBreakdownEntry where
  category : Category
  productCount : ℕ
  totalQty : ℚ
  totalVal : ℚ
deriving DecidableEq

/-- Embedding of categoryBreakdown of reports.tsx: per category, the count of
its cataloged products and the sums of their current quantities and stock
values; categories with no products are dropped; sorted descending by total
value. The breakdown reads the full catalog and ignores the period. -/
def categoryBreakdown (categories : List Category) (products : List Product) :
    List CategoryBreakdownEntry :=
  sortDescBy (fun e => e.totalVal)
    ((categories.map fun cat =>
      let catProducts := products.filter fun p => decide (p.categoryId = cat.id)
      { category := cat
        productCount := catProducts.length
        totalQty := catProducts.foldl (fun a p => a + p.quantity) 0
        totalVal := catProducts.foldl (fun a p => a + p.quantity * p.price) 0
        : CategoryBreakdownEntry }).filter fun c => decide (c.productCount > 0))

/-- The stock-summary figures of renderGeneralReport. -/
structure GeneralSummary where
  totalStockValue : ℚ
  avgPrice : ℚ
  lowStockCount : ℕ
  zeroStockCount : ℕ
deriving DecidableEq

/-- Embedding of the stock summary of renderGeneralReport: total stock value,
average unit price with the empty-catalog division guarded to 0, and the
counts of low-stock (quantity at most minStock) and zero-stock products. -/
def generalSummary (products : List Product) : GeneralSummary :=
  { totalStockValue := products.foldl (fun a p => a + p.quantity * p.price) 0
    avgPrice :=
      if products.length > 0 then
        products.foldl (fun a p => a + p.price) 0 / (products.length : ℚ)
      else 0
    lowStockCount := (products.filter fun p => decide (p.quantity ≤ p.minStock)).length
    zeroStockCount := (products.filter fun p => decide (p.quantity = 0)).length }

/-- The assembled report value: the filtered movement set, summary totals,
rankings, consumption rows, category breakdown and stock summary. -/
structure Report where
  filtered : List Movement
  totalEntryQty : ℚ
  totalExitQty : ℚ
  entryValue : ℚ
  exitValue : ℚ
  topEntry : List RankEntry
  topExit : List RankEntry
  consumption : List ConsumptionEntry
  breakdown : List CategoryBreakdownEntry
  general : GeneralSummary
deriving DecidableEq

/-- Assembly of the derived report values of the reports screen: the period
filter and the optional product filter narrow the movements, the partitions
feed the totals, rankings and the consumption projector, and the catalog
feeds the breakdown and the stock summary. clock is the wall-clock value the
source reads internally. -/
def assembleReport (clock : ℤ) (movements : List Movement) (products : List Product)
    (categories : List Category) (period : Period) (selectedProductIds : List String) :
    Report :=
  let filtered := applyProductFilter selectedProductIds (filterByPeriod clock movements period)
  let entries := entriesOf filtered
  let exits := exitsOf filtered
  { filtered := filtered
    totalEntryQty := totalQty entries
    totalExitQty := totalQty exits
    entryValue := totalValue products entries
    exitValue := totalValue products exits
    topEntry := topByProduct entries products
    topExit := topByProduct exits products
    consumption := consumptionData exits products categories period
    breakdown := categoryBreakdown categories products
    general := generalSummary products }

/-- Embedding of the quantity update of POST /api/movements: an entry adds
the movement quantity to the stored product quantity; an exit subtracts it,
clamped below at zero via Math.max(0, ...). -/
def applyMovementQuantity (current : ℚ) (t : MovType) (qty : ℚ) : ℚ :=
  match t with
  | .entry => current + qty
  | .exit => max 0 (current - qty)

/-- Sum of the per-product quantities of a ranking, the left side of the
conservation property. -/
def rankingTotalQty (l : List RankEntry) : ℚ :=
  (l.map fun e => e.qty).sum

/-- Sum of the per-product monetary values (summed quantity times current
price) of a ranking. -/
def rankingTotalValue (l : List RankEntry) : ℚ :=
  (l.map fun e => e.qty * e.product.price).sum

/-- Earliest timestamp of a date list (0 for the empty list), stated from the
specification's words for comparison with the source's sort-then-head. -/
def earliest (l : List ℤ) : ℤ :=
  match l with
  | [] => 0
  | x :: xs => xs.foldl min x

/-- Latest timestamp of a date list (0 for the empty list). -/
def latest (l : List ℤ) : ℤ :=
  match l with
  | [] => 0
  | x :: xs => xs.foldl max x

/-! ### Generic lemmas about the accumulating folds and the sorts -/

theorem foldl_add_eq (f : α → ℚ) (l : List α) :
    ∀ c : ℚ, l.foldl (fun a x => a + f x) c = c + (l.map f).sum := by
  induction l with
  | nil => intro c; simp
  | cons x xs ih => intro c; simp [ih, add_assoc]

theorem totalQty_eq_sum (ms : List Movement) :
    totalQty ms = (ms.map Movement.quantity).sum := by
  simpa using foldl_add_eq Movement.quantity ms 0

theorem totalValue_eq_sum (products : List Product) (ms : List Movement) :
    totalValue products ms = (ms.map fun m => m.quantity * priceOf products m.productId).sum := by
  simpa using foldl_add_eq (fun m => m.quantity * priceOf products m.productId) ms 0

theorem perm_insertDescBy (key : α → ℚ) (x : α) (l : List α) :
    List.Perm (insertDescBy key x l) (x :: l) := by
  induction l with
  | nil => simp [insertDescBy]
  | cons y ys ih =>
    by_cases h : key y ≤ key x
    · simp [insertDescBy, h]
    · simpa [insertDescBy, h] using (ih.cons y).trans (List.Perm.swap x y ys)

theorem perm_sortDescBy (key : α → ℚ) (l : List α) : List.Perm (sortDescBy key l) l := by
  induction l with
  | nil => simp [sortDescBy]
  | cons x xs ih =>
    exact (perm_insertDescBy key x (sortDescBy key xs)).trans (ih.cons x)

theorem mem_insertDescBy (key : α → ℚ) (x a : α) (l : List α) :
    a ∈ insertDescBy key x l ↔ a = x ∨ a ∈ l := by
  rw [(perm_insertDescBy key x l).mem_iff, List.mem_cons]

theorem sorted_insertDescBy (key : α → ℚ) (x : α) (l : List α)
    (h : l.Pairwise fun a b => key b ≤ key a) :
    (insertDescBy key x l).Pairwise fun a b => key b ≤ key a := by
  induction l with
  | nil => simp [insertDescBy]
  | cons y ys ih =>
    by_cases hxy : key y ≤ key x
    · rw [insertDescBy, if_pos hxy]
      refine List.Pairwise.cons ?_ h
      intro z hz
      rcases List.mem_cons.mp hz with rfl | hz
      · exact hxy
      · exact le_trans (List.rel_of_pairwise_cons h hz) hxy
    · rw [insertDescBy, if_neg hxy]
      rw [List.pairwise_cons] at h ⊢
      refine ⟨?_, ih h.2⟩
      intro z hz
      rcases (mem_insertDescBy key x z ys).mp hz with rfl | hz
      · exact le_of_lt (lt_of_not_le hxy)
      · exact h.1 z hz

theorem sorted_sortDescBy (key : α → ℚ) (l : List α) :
    (sortDescBy key l).Pairwise fun a b => key b ≤ key a := by
  induction l with
  | nil => simp [sortDescBy]
  | cons x xs ih => exact sorted_insertDescBy key x (sortDescBy key xs) ih

theorem perm_insertAsc (x : ℤ) (l : List ℤ) : List.Perm (insertAsc x l) (x :: l) := by
  induction l with
  | nil => simp [insertAsc]
  | cons y ys ih =>
    by_cases h : x ≤ y
    · simp [insertAsc, h]
    · simpa [insertAsc, h] using (ih.cons y).trans (List.Perm.swap x y ys)

theorem perm_sortAsc (l : List ℤ) : List.Perm (sortAsc l) l := by
  induction l with
  | nil => simp [sortAsc]
  | cons x xs ih => exact (perm_insertAsc x (sortAsc xs)).trans (ih.cons x)

theorem mem_insertAsc (x a : ℤ) (l : List ℤ) :
    a ∈ insertAsc x l ↔ a = x ∨ a ∈ l := by
  rw [(perm_insertAsc x l).mem_iff, List.mem_cons]

theorem sorted_insertAsc (x : ℤ) (l : List ℤ) (h : l.Pairwise (· ≤ ·)) :
    (insertAsc x l).Pairwise (· ≤ ·) := by
  induction l with
  | nil => simp [insertAsc]
  | cons y ys ih =>
    by_cases hxy : x ≤ y
    · rw [insertAsc, if_pos hxy]
      refine List.Pairwise.cons ?_ h
      intro z hz
      rcases List.mem_cons.mp hz with rfl | hz
      · exact hxy
      · exact le_trans hxy (List.rel_of_pairwise_cons h hz)
    · rw [insertAsc, if_neg hxy]
      rw [List.pairwise_cons] at h ⊢
      refine ⟨?_, ih h.2⟩
      intro z hz
      rcases (mem_insertAsc x z ys).mp hz with rfl | hz
      · exact le_of_lt (lt_of_not_le hxy)
      · exact h.1 z hz

theorem sorted_sortAsc (l : List ℤ) : (sortAsc l).Pairwise (· ≤ ·) := by
  induction l with
  | nil => simp [sortAsc]
  | cons x xs ih => exact sorted_insertAsc x (sortAsc xs) ih

theorem foldl_min_mem (xs : List ℤ) : ∀ x : ℤ, xs.foldl min x ∈ x :: xs := by
  induction xs with
  | nil => intro x; simp
  | cons y ys ih =>
    intro x
    rw [List.foldl_cons]
    rcases List.mem_cons.mp (ih (min x y)) with h | h
    · rw [h]
      rcases min_choice x y with h2 | h2 <;> rw [h2] <;> simp
    · simp [h]

theorem foldl_min_le (xs : List ℤ) : ∀ x : ℤ, ∀ y ∈ x :: xs, xs.foldl min x ≤ y := by
  induction xs with
  | nil =>
    intro x y hy
    have : y = x := by simpa using hy
    simp [this]
  | cons z zs ih =>
    intro x y hy
    rw [List.foldl_cons]
    rcases List.mem_cons.mp hy with h1 | hy
    · rw [h1]
      exact le_trans (ih (min x z) (min x z) (by simp)) (min_le_left x z)
    · rcases List.mem_cons.mp hy with h1 | hy
      · rw [h1]
        exact le_trans (ih (min x z) (min x z) (by simp)) (min_le_right x z)
      · exact ih (min x z) y (by simp [hy])

theorem foldl_max_mem (xs : List ℤ) : ∀ x : ℤ, xs.foldl max x ∈ x :: xs := by
  induction xs with
  | nil => intro x; simp
  | cons y ys ih =>
    intro x
    rw [List.foldl_cons]
    rcases List.mem_cons.mp (ih (max x y)) with h | h
    · rw [h]
      rcases max_choice x y with h2 | h2 <;> rw [h2] <;> simp
    · simp [h]

theorem foldl_max_ge (xs : List ℤ) : ∀ x : ℤ, ∀ y ∈ x :: xs, y ≤ xs.foldl max x := by
  induction xs with
  | nil =>
    intro x y hy
    have : y = x := by simpa using hy
    simp [this]
  | cons z zs ih =>
    intro x y hy
    rw [List.foldl_cons]
    rcases List.mem_cons.mp hy with h1 | hy
    · rw [h1]
      exact le_trans (le_max_left x z) (ih (max x z) (max x z) (by simp))
    · rcases List.mem_cons.mp hy with h1 | hy
      · rw [h1]
        exact le_trans (le_max_right x z) (ih (max x z) (max x z) (by simp))
      · exact ih (max x z) y (by simp [hy])

theorem earliest_mem (l : List ℤ) (h : l ≠ []) : earliest l ∈ l := by
  cases l with
  | nil => exact absurd rfl h
  | cons x xs => exact foldl_min_mem xs x

theorem earliest_le (l : List ℤ) : ∀ y ∈ l, earliest l ≤ y := by
  cases l with
  | nil => intro y hy; simp at hy
  | cons x xs => exact foldl_min_le xs x

theorem latest_mem (l : List ℤ) (h : l ≠ []) : latest l ∈ l := by
  cases l with
  | nil => exact absurd rfl h
  | cons x xs => exact foldl_max_mem xs x

theorem le_latest (l : List ℤ) : ∀ y ∈ l, y ≤ latest l := by
  cases l with
  | nil => intro y hy; simp at hy
  | cons x xs => exact foldl_max_ge xs x

theorem getLastD_mem (l : List ℤ) : ∀ d : ℤ, l ≠ [] → l.getLastD d ∈ l := by
  induction l with
  | nil => intro d h; exact absurd rfl h
  | cons a t ih =>
    intro d _
    rw [List.getLastD_cons]
    rcases eq_or_ne t [] with rfl | ht
    · simp
    · exact List.mem_cons_of_mem a (ih a ht)

theorem sorted_le_getLastD (l : List ℤ) :
    l.Pairwise (· ≤ ·) → ∀ d : ℤ, ∀ x ∈ l, x ≤ l.getLastD d := by
  induction l with
  | nil => intro _ d x hx; simp at hx
  | cons a t ih =>
    intro h d x hx
    rw [List.getLastD_cons]
    rcases List.mem_cons.mp hx with rfl | hx
    · rcases eq_or_ne t [] with rfl | ht
      · simp
      · exact List.rel_of_pairwise_cons h (getLastD_mem t x ht)
    · exact ih (List.pairwise_cons.mp h).2 a x hx

theorem sortAsc_ne_nil (l : List ℤ) (h : l ≠ []) : sortAsc l ≠ [] := by
  intro he
  exact h (List.Perm.eq_nil (he ▸ (perm_sortAsc l).symm))

theorem sortAsc_headD (l : List ℤ) (h : l ≠ []) : (sortAsc l).headD 0 = earliest l := by
  have hperm := perm_sortAsc l
  obtain ⟨a, t, hat⟩ := List.exists_cons_of_ne_nil (sortAsc_ne_nil l h)
  have hsorted := sorted_sortAsc l
  rw [hat] at hsorted hperm ⊢
  rw [List.headD_cons]
  have h1 : a ≤ earliest l := by
    rcases List.mem_cons.mp (hperm.symm.subset (earliest_mem l h)) with he | he
    · exact le_of_eq he.symm
    · exact List.rel_of_pairwise_cons hsorted he
  have h2 : earliest l ≤ a := earliest_le l a (hperm.subset (by simp))
  exact (le_antisymm h2 h1).symm

theorem sortAsc_getLastD (l : List ℤ) (h : l ≠ []) : (sortAsc l).getLastD 0 = latest l := by
  have hperm := perm_sortAsc l
  have hne := sortAsc_ne_nil l h
  have hsorted := sorted_sortAsc l
  have hmem : (sortAsc l).getLastD 0 ∈ l := hperm.subset (getLastD_mem (sortAsc l) 0 hne)
  have hge : ∀ x ∈ l, x ≤ (sortAsc l).getLastD 0 := by
    intro x hx
    exact sorted_le_getLastD (sortAsc l) hsorted 0 x (hperm.symm.subset hx)
  exact le_antisymm (le_latest l _ hmem) (hge (latest l) (latest_mem l h))

/-! ### Characterization of the per-product record folds -/

/-- Specification value of one grouped key: the accumulated value over the
movements carrying that product id, in list order. -/
def groupSpec (init : Movement → β) (add : β → Movement → β) (ms : List Movement)
    (pid : String) : Option β :=
  match ms.filter fun m => decide (m.productId = pid) with
  | [] => none
  | m :: rest => some (rest.foldl add (init m))

theorem keys_bumpWith (init : Movement → β) (add : β → Movement → β) (m : Movement) :
    ∀ acc : List (String × β),
      (bumpWith init add acc m).map Prod.fst =
        if m.productId ∈ acc.map Prod.fst then acc.map Prod.fst
        else acc.map Prod.fst ++ [m.productId] := by
  intro acc
  induction acc with
  | nil => simp [bumpWith]
  | cons kv rest ih =>
    obtain ⟨k, v⟩ := kv
    by_cases hk : k = m.productId
    · subst hk
      simp [bumpWith]
    · simp only [bumpWith, if_neg hk, List.map_cons, ih]
      by_cases hm : m.productId ∈ rest.map Prod.fst
      · simp [hm, Ne.symm hk]
      · simp [hm, Ne.symm hk]

theorem nodupKeys_bumpWith (init : Movement → β) (add : β → Movement → β) (m : Movement)
    (acc : List (String × β)) (h : (acc.map Prod.fst).Nodup) :
    ((bumpWith init add acc m).map Prod.fst).Nodup := by
  rw [keys_bumpWith]
  by_cases hm : m.productId ∈ acc.map Prod.fst
  · simpa [hm] using h
  · simp [hm, List.nodup_append, h]

theorem nodupKeys_recordFold (init : Movement → β) (add : β → Movement → β)
    (ms : List Movement) : ((recordFold init add ms).map Prod.fst).Nodup := by
  suffices h : ∀ acc : List (String × β), (acc.map Prod.fst).Nodup →
      ((ms.foldl (bumpWith init add) acc).map Prod.fst).Nodup by
    simpa [recordFold] using h [] (by simp)
  induction ms with
  | nil => intro acc h; simpa using h
  | cons m rest ih =>
    intro acc h
    rw [List.foldl_cons]
    exact ih _ (nodupKeys_bumpWith init add m acc h)

theorem pair_not_mem_of_key_not_mem {acc : List (String × β)} {k : String} {v : β}
    (h : k ∉ acc.map Prod.fst) : (k, v) ∉ acc := by
  intro hm
  exact h (List.mem_map_of_mem Prod.fst hm)

theorem mem_bumpWith_ne (init : Movement → β) (add : β → Movement → β) (m : Movement)
    (pid : String) (v : β) (hne : pid ≠ m.productId) :
    ∀ acc : List (String × β), ((pid, v) ∈ bumpWith init add acc m ↔ (pid, v) ∈ acc) := by
  intro acc
  induction acc with
  | nil => simp [bumpWith, hne]
  | cons kv rest ih =>
    obtain ⟨k, w⟩ := kv
    by_cases hk : k = m.productId
    · subst hk
      simp only [bumpWith, if_pos rfl]
      simp [List.mem_cons, Prod.mk.injEq, hne]
    · simp only [bumpWith, if_neg hk]
      simp [List.mem_cons, ih]

theorem mem_bumpWith_self (init : Movement → β) (add : β → Movement → β) (m : Movement)
    (v : β) :
    ∀ acc : List (String × β), (acc.map Prod.fst).Nodup →
      ((m.productId, v) ∈ bumpWith init add acc m ↔
        (∃ v₀, (m.productId, v₀) ∈ acc ∧ v = add v₀ m) ∨
        (m.productId ∉ acc.map Prod.fst ∧ v = init m)) := by
  intro acc
  induction acc with
  | nil =>
    intro _
    simp [bumpWith, eq_comm]
  | cons kv rest ih =>
    intro hnd
    obtain ⟨k, w⟩ := kv
    rw [List.map_cons] at hnd
    have hk_notin : k ∉ rest.map Prod.fst := (List.nodup_cons.mp hnd).1
    have hnd2 : (rest.map Prod.fst).Nodup := (List.nodup_cons.mp hnd).2
    by_cases hk : k = m.productId
    · subst hk
      simp only [bumpWith, if_pos rfl]
      constructor
      · intro hmem
        rcases List.mem_cons.mp hmem with he | hmem2
        · left
          refine ⟨w, List.mem_cons_self _ _, ?_⟩
          exact ((Prod.mk.injEq _ _ _ _).mp he).2
        · exact absurd (List.mem_map_of_mem Prod.fst hmem2) hk_notin
      · rintro (⟨v₀, hv₀, rfl⟩ | ⟨hnotin, rfl⟩)
        · rcases List.mem_cons.mp hv₀ with he | hv₀2
          · have hw : v₀ = w := ((Prod.mk.injEq _ _ _ _).mp he).2
            subst hw
            exact List.mem_cons_self _ _
          · exact absurd (List.mem_map_of_mem Prod.fst hv₀2) hk_notin
        · exact absurd (by simp) hnotin
    · have hne2 : m.productId ≠ k := Ne.symm hk
      simp only [bumpWith, if_neg hk]
      rw [List.mem_cons]
      constructor
      · rintro (he | hmem2)
        · exact absurd ((Prod.mk.injEq _ _ _ _).mp he).1 hne2
        · rcases (ih hnd2).mp hmem2 with ⟨v₀, hv₀, hv⟩ | ⟨hnotin, hv⟩
          · exact Or.inl ⟨v₀, List.mem_cons_of_mem _ hv₀, hv⟩
          · refine Or.inr ⟨?_, hv⟩
            simp [hne2, hnotin]
      · rintro (⟨v₀, hv₀, hv⟩ | ⟨hnotin, hv⟩)
        · rcases List.mem_cons.mp hv₀ with he | hv₀2
          · exact absurd ((Prod.mk.injEq _ _ _ _).mp he).1 hne2
          · exact Or.inr ((ih hnd2).mpr (Or.inl ⟨v₀, hv₀2, hv⟩))
        · have hnotin2 : m.productId ∉ rest.map Prod.fst := by
            intro hmm
            exact hnotin (by simp [hmm])
          exact Or.inr ((ih hnd2).mpr (Or.inr ⟨hnotin2, hv⟩))

theorem groupSpec_append_one (init : Movement → β) (add : β → Movement → β)
    (ms : List Movement) (m : Movement) (pid : String) :
    groupSpec init add (ms ++ [m]) pid =
      if m.productId = pid then
        (match groupSpec init add ms pid with
         | none => some (init m)
         | some v => some (add v m))
      else groupSpec init add ms pid := by
  unfold groupSpec
  rw [List.filter_append]
  by_cases h : m.productId = pid
  · rw [if_pos h]
    have hone : List.filter (fun m => decide (m.productId = pid)) [m] = [m] := by simp [h]
    rw [hone]
    cases hf : List.filter (fun m => decide (m.productId = pid)) ms with
    | nil => simp
    | cons m₀ rest => simp [List.foldl_append]
  · rw [if_neg h]
    have hnone : List.filter (fun m => decide (m.productId = pid)) [m] = [] := by simp [h]
    rw [hnone, List.append_nil]

theorem mem_recordFold (init : Movement → β) (add : β → Movement → β) (ms : List Movement) :
    ∀ (pid : String) (v : β),
      ((pid, v) ∈ recordFold init add ms ↔ groupSpec init add ms pid = some v) := by
  induction ms using List.reverseRecOn with
  | nil => intro pid v; simp [recordFold, groupSpec]
  | append_singleton ms m ih =>
    intro pid v
    have hrec : recordFold init add (ms ++ [m]) =
        bumpWith init add (recordFold init add ms) m := by
      rw [recordFold, List.foldl_append, List.foldl_cons, List.foldl_nil]
      rfl
    rw [hrec, groupSpec_append_one]
    by_cases h : m.productId = pid
    · subst h
      rw [if_pos rfl]
      rw [mem_bumpWith_self init add m v _ (nodupKeys_recordFold init add ms)]
      have hkey : m.productId ∈ (recordFold init add ms).map Prod.fst ↔
          ∃ w, groupSpec init add ms m.productId = some w := by
        constructor
        · intro hmem
          obtain ⟨⟨k, w⟩, hw, hkw⟩ := List.mem_map.mp hmem
          have hkk : k = m.productId := hkw
          subst hkk
          exact ⟨w, (ih _ _).mp hw⟩
        · rintro ⟨w, hw⟩
          exact List.mem_map_of_mem Prod.fst ((ih _ _).mpr hw)
      cases hgs : groupSpec init add ms m.productId with
      | none =>
        simp only
        constructor
        · rintro (⟨v₀, hv₀, rfl⟩ | ⟨hnot, rfl⟩)
          · rw [(ih _ _).mp hv₀] at hgs
            cases hgs
          · rfl
        · intro hv
          have hvv : init m = v := by injection hv
          right
          refine ⟨?_, hvv.symm⟩
          intro hkmem
          obtain ⟨w, hw⟩ := hkey.mp hkmem
          rw [hgs] at hw
          cases hw
      | some v₀ =>
        simp only
        constructor
        · rintro (⟨v₁, hv₁, rfl⟩ | ⟨hnot, rfl⟩)
          · rw [(ih _ _).mp hv₁] at hgs
            have : v₁ = v₀ := by injection hgs
            rw [this]
          · exact absurd (hkey.mpr ⟨v₀, hgs⟩) hnot
        · intro hv
          have hvv : add v₀ m = v := by injection hv
          exact Or.inl ⟨v₀, (ih _ _).mpr hgs, hvv.symm⟩
    · rw [if_neg h]
      rw [mem_bumpWith_ne init add m pid v (Ne.symm h)]
      exact ih pid v

/-! ### Instantiating the characterization at the two groupings -/

theorem mem_qtyByProduct (ms : List Movement) (pid : String) (q : ℚ) :
    (pid, q) ∈ qtyByProduct ms ↔
      (∃ m ∈ ms, m.productId = pid) ∧
        q = totalQty (ms.filter fun m => decide (m.productId = pid)) := by
  rw [qtyByProduct, mem_recordFold]
  unfold groupSpec
  cases hf : ms.filter fun m => decide (m.productId = pid) with
  | nil =>
    simp only [hf]
    constructor
    · intro h; cases h
    · rintro ⟨⟨m, hm, hpid⟩, _⟩
      have hmem : m ∈ ms.filter fun m => decide (m.productId = pid) :=
        List.mem_filter.mpr ⟨hm, by simp [hpid]⟩
      rw [hf] at hmem
      cases hmem
  | cons m₀ rest =>
    simp only [hf, Option.some.injEq]
    have hm₀ : m₀ ∈ ms ∧ m₀.productId = pid := by
      have hmem : m₀ ∈ ms.filter fun m => decide (m.productId = pid) := by
        rw [hf]; exact List.mem_cons_self _ _
      have h2 := List.mem_filter.mp hmem
      exact ⟨h2.1, by simpa using h2.2⟩
    have hformula : rest.foldl (fun q m => q + m.quantity) m₀.quantity =
        totalQty (m₀ :: rest) := by
      rw [totalQty, List.foldl_cons, foldl_add_eq Movement.quantity rest,
        foldl_add_eq Movement.quantity rest]
      ring
    rw [hformula]
    constructor
    · intro hq
      exact ⟨⟨m₀, hm₀.1, hm₀.2⟩, hq.symm⟩
    · rintro ⟨_, hq⟩
      exact hq.symm

theorem foldl_exitGroup (rest : List Movement) :
    ∀ g₀ : ExitGroup,
      rest.foldl (fun g m => (⟨g.total + m.quantity, g.dates ++ [m.createdAt]⟩ : ExitGroup)) g₀ =
        ⟨g₀.total + (rest.map Movement.quantity).sum,
          g₀.dates ++ rest.map Movement.createdAt⟩ := by
  induction rest with
  | nil => intro g₀; simp
  | cons m rest ih =>
    intro g₀
    rw [List.foldl_cons, ih]
    simp [add_assoc]

theorem mem_exitsByProduct (ms : List Movement) (pid : String) (g : ExitGroup) :
    (pid, g) ∈ exitsByProduct ms ↔
      (∃ m ∈ ms, m.productId = pid) ∧
        g.total = totalQty (ms.filter fun m => decide (m.productId = pid)) ∧
        g.dates = (ms.filter fun m => decide (m.productId = pid)).map Movement.createdAt := by
  rw [exitsByProduct, mem_recordFold]
  unfold groupSpec
  cases hf : ms.filter fun m => decide (m.productId = pid) with
  | nil =>
    simp only [hf]
    constructor
    · intro h; cases h
    · rintro ⟨⟨m, hm, hpid⟩, _⟩
      have hmem : m ∈ ms.filter fun m => decide (m.productId = pid) :=
        List.mem_filter.mpr ⟨hm, by simp [hpid]⟩
      rw [hf] at hmem
      cases hmem
  | cons m₀ rest =>
    simp only [hf, Option.some.injEq]
    have hm₀ : m₀ ∈ ms ∧ m₀.productId = pid := by
      have hmem : m₀ ∈ ms.filter fun m => decide (m.productId = pid) := by
        rw [hf]; exact List.mem_cons_self _ _
      have h2 := List.mem_filter.mp hmem
      exact ⟨h2.1, by simpa using h2.2⟩
    rw [foldl_exitGroup rest ⟨m₀.quantity, [m₀.createdAt]⟩]
    have htq : totalQty (m₀ :: rest) = m₀.quantity + (rest.map Movement.quantity).sum := by
      rw [totalQty, List.foldl_cons, foldl_add_eq Movement.quantity rest]
      ring
    constructor
    · intro hg
      refine ⟨⟨m₀, hm₀.1, hm₀.2⟩, ?_, ?_⟩
      · rw [← hg, htq]
      · rw [← hg]
        simp
    · rintro ⟨_, hg1, hg2⟩
      have : g = ⟨g.total, g.dates⟩ := rfl
      rw [this, hg1, hg2, htq]
      simp

theorem weightedSum_bumpQty (w : String → ℚ) (m : Movement) :
    ∀ acc : List (String × ℚ),
      ((bumpWith (fun m => m.quantity) (fun q m => q + m.quantity) acc m).map
          fun pq => pq.2 * w pq.1).sum =
        (acc.map fun pq => pq.2 * w pq.1).sum + m.quantity * w m.productId := by
  intro acc
  induction acc with
  | nil => simp [bumpWith]
  | cons kv rest ih =>
    obtain ⟨k, q⟩ := kv
    by_cases hk : k = m.productId
    · subst hk
      simp only [bumpWith, if_true, eq_self_iff_true, List.map_cons, List.sum_cons]
      ring
    · simp only [bumpWith, if_neg hk, List.map_cons, List.sum_cons, ih]
      ring

theorem qtyByProduct_weightedSum (w : String → ℚ) (ms : List Movement) :
    ((qtyByProduct ms).map fun pq => pq.2 * w pq.1).sum =
      (ms.map fun m => m.quantity * w m.productId).sum := by
  suffices h : ∀ acc : List (String × ℚ),
      ((ms.foldl (bumpWith (fun m => m.quantity) (fun q m => q + m.quantity)) acc).map
        fun pq => pq.2 * w pq.1).sum =
      (acc.map fun pq => pq.2 * w pq.1).sum +
        (ms.map fun m => m.quantity * w m.productId).sum by
    simpa [qtyByProduct, recordFold] using h []
  induction ms with
  | nil => intro acc; simp
  | cons m rest ih =>
    intro acc
    rw [List.foldl_cons, ih, weightedSum_bumpQty, List.map_cons, List.sum_cons]
    ring

/-! ### Lemmas about the rankings -/

theorem filterMap_rank_sums (products : List Product) (l : List (String × ℚ))
    (h : ∀ pq ∈ l, ∃ p ∈ products, p.id = pq.1) :
    rankingTotalQty (l.filterMap fun pq =>
        (products.find? fun p => decide (p.id = pq.1)).map fun p => (⟨p, pq.2⟩ : RankEntry)) =
      (l.map fun pq => pq.2).sum ∧
    rankingTotalValue (l.filterMap fun pq =>
        (products.find? fun p => decide (p.id = pq.1)).map fun p => (⟨p, pq.2⟩ : RankEntry)) =
      (l.map fun pq => pq.2 * priceOf products pq.1).sum := by
  induction l with
  | nil => simp [rankingTotalQty, rankingTotalValue]
  | cons pq rest ih =>
    obtain ⟨p, hp, hid⟩ := h pq (List.mem_cons_self _ _)
    have hsome : ∃ p', (products.find? fun p => decide (p.id = pq.1)) = some p' := by
      have hi : (products.find? fun p => decide (p.id = pq.1)).isSome := by
        rw [List.find?_isSome]
        exact ⟨p, hp, by simpa using hid⟩
      exact Option.isSome_iff_exists.mp hi
    obtain ⟨p', hfind⟩ := hsome
    have ihh := ih fun x hx => h x (List.mem_cons_of_mem _ hx)
    have hprice : priceOf products pq.1 = p'.price := by
      rw [priceOf, hfind]
      rfl
    rw [List.filterMap_cons]
    simp only [hfind, Option.map_some']
    constructor
    · rw [rankingTotalQty, List.map_cons, List.sum_cons, List.map_cons, List.sum_cons,
        ← rankingTotalQty, ihh.1]
    · rw [rankingTotalValue, List.map_cons, List.sum_cons, List.map_cons, List.sum_cons,
        ← rankingTotalValue, ihh.2, hprice]

theorem rankingTotalQty_perm (l₁ l₂ : List RankEntry) (h : List.Perm l₁ l₂) :
    rankingTotalQty l₁ = rankingTotalQty l₂ :=
  List.Perm.sum_eq (h.map _)

theorem rankingTotalValue_perm (l₁ l₂ : List RankEntry) (h : List.Perm l₁ l₂) :
    rankingTotalValue l₁ = rankingTotalValue l₂ :=
  List.Perm.sum_eq (h.map _)

theorem rankingRows_length_le (ms : List Movement) (products : List Product) :
    (rankingRows ms products).length ≤ (qtyByProduct ms).length := by
  rw [rankingRows, (perm_sortDescBy _ _).length_eq]
  exact List.length_filterMap_le _ _

theorem mem_rankingRows (ms : List Movement) (products : List Product) (e : RankEntry)
    (h : e ∈ rankingRows ms products) :
    e.product ∈ products ∧ (∃ m ∈ ms, m.productId = e.product.id) ∧
      e.qty = totalQty (ms.filter fun m => decide (m.productId = e.product.id)) := by
  have h2 := (perm_sortDescBy _ _).subset h
  obtain ⟨pq, hpq, hfm⟩ := List.mem_filterMap.mp h2
  obtain ⟨p', hfind, hpe⟩ := Option.map_eq_some'.mp hfm
  have hpmem : p' ∈ products := List.mem_of_find?_eq_some hfind
  have hpid : p'.id = pq.1 := by
    have := List.find?_some hfind
    simpa using this
  have hprod : e.product = p' := by rw [← hpe]
  have hqty : e.qty = pq.2 := by rw [← hpe]
  have hchar := (mem_qtyByProduct ms pq.1 pq.2).mp hpq
  refine ⟨hprod ▸ hpmem, ?_, ?_⟩
  · rw [hprod, hpid]
    exact hchar.1
  · rw [hqty, hprod, hpid]
    exact hchar.2

theorem mem_topByProduct (ms : List Movement) (products : List Product) (e : RankEntry)
    (h : e ∈ topByProduct ms products) :
    e.product ∈ products ∧ (∃ m ∈ ms, m.productId = e.product.id) ∧
      e.qty = totalQty (ms.filter fun m => decide (m.productId = e.product.id)) :=
  mem_rankingRows ms products e (List.mem_of_mem_take h)

/-! ### Lemmas about the consumption projector -/

theorem consumptionEntryFor_some (products : List Product) (categories : List Category)
    (periodDays : Option ℤ) (pid : String) (g : ExitGroup) (e : ConsumptionEntry)
    (h : consumptionEntryFor products categories periodDays pid g = some e) :
    e.product ∈ products ∧ e.product.id = pid ∧ e.totalConsumed = g.total ∧
      e.dailyAvg = g.total /
        ((max (periodDays.getD (max 1
            (Int.ceil ((((sortAsc g.dates).getLastD 0 - (sortAsc g.dates).headD 0 : ℤ) : ℚ) /
              (msPerDay : ℚ))))) 1 : ℤ) : ℚ) ∧
      e.monthlyProjection = e.dailyAvg * 30 ∧
      e.daysUntilEmpty =
        (if 0 < e.dailyAvg then some (round (e.product.quantity / e.dailyAvg)) else none) ∧
      e.status = consumptionStatus e.daysUntilEmpty := by
  rw [consumptionEntryFor] at h
  cases hfind : products.find? fun p => decide (p.id = pid) with
  | none =>
    rw [hfind] at h
    cases h
  | some product =>
    rw [hfind] at h
    rw [Option.some.injEq] at h
    subst h
    refine ⟨List.mem_of_find?_eq_some hfind, ?_, rfl, rfl, rfl, rfl, rfl⟩
    have := List.find?_some hfind
    simpa using this

theorem mem_consumptionData (exits : List Movement) (products : List Product)
    (categories : List Category) (period : Period) (e : ConsumptionEntry)
    (h : e ∈ consumptionData exits products categories period) :
    ∃ g : ExitGroup, (e.product.id, g) ∈ exitsByProduct exits ∧
      consumptionEntryFor products categories period.days e.product.id g = some e := by
  have h2 := (perm_sortDescBy _ _).subset h
  obtain ⟨pg, hpg, hfm⟩ := List.mem_filterMap.mp h2
  have hpid : e.product.id = pg.1 :=
    (consumptionEntryFor_some products categories period.days pg.1 pg.2 e hfm).2.1
  refine ⟨pg.2, ?_, ?_⟩
  · rw [hpid]
    exact hpg
  · rw [hpid]
    exact hfm

theorem consumptionData_covers (exits : List Movement) (products : List Product)
    (categories : List Category) (period : Period) (pid : String)
    (hexit : ∃ m ∈ exits, m.productId = pid) (hprod : ∃ p ∈ products, p.id = pid) :
    ∃ e ∈ consumptionData exits products categories period, e.product.id = pid := by
  have hg : (pid, (⟨totalQty (exits.filter fun m => decide (m.productId = pid)),
      (exits.filter fun m => decide (m.productId = pid)).map Movement.createdAt⟩ : ExitGroup)) ∈
      exitsByProduct exits :=
    (mem_exitsByProduct exits pid _).mpr ⟨hexit, rfl, rfl⟩
  obtain ⟨p, hp, hpid⟩ := hprod
  have hfind : ∃ p', (products.find? fun q => decide (q.id = pid)) = some p' := by
    have hi : (products.find? fun q => decide (q.id = pid)).isSome := by
      rw [List.find?_isSome]
      exact ⟨p, hp, by simpa using hpid⟩
    exact Option.isSome_iff_exists.mp hi
  obtain ⟨p', hfindeq⟩ := hfind
  have hsome : ∃ e, consumptionEntryFor products categories period.days pid
      (⟨totalQty (exits.filter fun m => decide (m.productId = pid)),
        (exits.filter fun m => decide (m.productId = pid)).map Movement.createdAt⟩ : ExitGroup) =
      some e := by
    rw [consumptionEntryFor, hfindeq]
    exact ⟨_, rfl⟩
  obtain ⟨e, he⟩ := hsome
  have hmem : e ∈ (exitsByProduct exits).filterMap fun pg =>
      consumptionEntryFor products categories period.days pg.1 pg.2 :=
    List.mem_filterMap.mpr ⟨(pid, _), hg, he⟩
  refine ⟨e, ?_, ?_⟩
  · rw [consumptionData]
    exact (perm_sortDescBy _ _).mem_iff.mpr hmem
  · exact (consumptionEntryFor_some products categories period.days pid _ e he).2.1

/-! ### Lemmas about the period filter -/

theorem filterByPeriod_all (clock : ℤ) (ms : List Movement) :
    filterByPeriod clock ms .all = ms := rfl

theorem mem_filterByPeriod_some (clock : ℤ) (ms : List Movement) (period : Period)
    (days : ℤ) (hd : period.days = some days) (m : Movement) :
    m ∈ filterByPeriod clock ms period ↔
      m ∈ ms ∧ clock - days * msPerDay ≤ m.createdAt := by
  unfold filterByPeriod
  rw [hd]
  simp [List.mem_filter]

theorem filter_of_filter_imp {p q : Movement → Bool} (l : List Movement)
    (h : ∀ m, p m = true → q m = true) : (l.filter p).filter q = l.filter p := by
  rw [List.filter_eq_self]
  intro a ha
  exact h a (List.of_mem_filter ha)

theorem cutoff_mono (clock : ℤ) (d₁ d₂ : ℤ) (h : d₁ ≤ d₂) (m : Movement) :
    decide (clock - d₁ * msPerDay ≤ m.createdAt) = true →
      decide (clock - d₂ * msPerDay ≤ m.createdAt) = true := by
  intro hm
  rw [decide_eq_true_iff] at hm ⊢
  have hms : (0:ℤ) ≤ msPerDay := by rw [msPerDay]; omega
  nlinarith

/-- C7: the period filter is idempotent; re-filtering an already-filtered set
with the same or a wider bounded period leaves it unchanged; for a fixed
internally read clock the filtered sets grow with the window (7, 30, 90 days,
then the unbounded period, which returns the input unchanged); and the cutoff
comparison is inclusive: any movement with createdAt at or after
clock - days * msPerDay is retained. -/
theorem filter_period_algebra (clock : ℤ) (movements : List Movement) :
    (∀ period, filterByPeriod clock (filterByPeriod clock movements period) period =
      filterByPeriod clock movements period) ∧
    (filterByPeriod clock (filterByPeriod clock movements .d7) .d30 =
      filterByPeriod clock movements .d7) ∧
    (filterByPeriod clock (filterByPeriod clock movements .d7) .d90 =
      filterByPeriod clock movements .d7) ∧
    (filterByPeriod clock (filterByPeriod clock movements .d30) .d90 =
      filterByPeriod clock movements .d30) ∧
    (filterByPeriod clock movements .d7 ⊆ filterByPeriod clock movements .d30) ∧
    (filterByPeriod clock movements .d30 ⊆ filterByPeriod clock movements .d90) ∧
    (filterByPeriod clock movements .d90 ⊆ filterByPeriod clock movements .all) ∧
    (filterByPeriod clock movements .all = movements) ∧
    (∀ period days, period.days = some days →
      ∀ m ∈ movements, clock - days * msPerDay ≤ m.createdAt →
        m ∈ filterByPeriod clock movements period) := by
  have hsub : ∀ d₁ d₂ : ℤ, d₁ ≤ d₂ →
      (movements.filter fun m => decide (clock - d₁ * msPerDay ≤ m.createdAt)) ⊆
        movements.filter fun m => decide (clock - d₂ * msPerDay ≤ m.createdAt) := by
    intro d₁ d₂ h x hx
    have hx2 := List.mem_filter.mp hx
    exact List.mem_filter.mpr ⟨hx2.1, cutoff_mono clock d₁ d₂ h x hx2.2⟩
  refine ⟨?_, ?_, ?_, ?_, ?_, ?_, ?_, rfl, ?_⟩
  · intro period
    cases period with
    | all => rfl
    | d7 => exact filter_of_filter_imp movements fun m hm => hm
    | d30 => exact filter_of_filter_imp movements fun m hm => hm
    | d90 => exact filter_of_filter_imp movements fun m hm => hm
  · exact filter_of_filter_imp movements fun m => cutoff_mono clock 7 30 (by omega) m
  · exact filter_of_filter_imp movements fun m => cutoff_mono clock 7 90 (by omega) m
  · exact filter_of_filter_imp movements fun m => cutoff_mono clock 30 90 (by omega) m
  · exact hsub 7 30 (by omega)
  · exact hsub 30 90 (by omega)
  · intro x hx
    exact (List.mem_filter.mp hx).1
  · intro period days hd m hm hcut
    exact (mem_filterByPeriod_some clock movements period days hd m).mpr ⟨hm, hcut⟩

/-- C3 (amended): the engine is deterministic: two runs on identical
movements, products, categories, period, product filter, and the same
internally read wall-clock value produce identical reports. The part of the
claim stating that the current time is an explicit input of the period filter
is refuted by the companion counterexample: in the source filterByPeriod
obtains the time itself via new Date(), so its output varies with the ambient
clock while its declared inputs are unchanged. -/
theorem report_deterministic (clock₁ clock₂ : ℤ) (ms₁ ms₂ : List Movement)
    (ps₁ ps₂ : List Product) (cs₁ cs₂ : List Category) (per₁ per₂ : Period)
    (ids₁ ids₂ : List String) (hc : clock₁ = clock₂) (hm : ms₁ = ms₂) (hp : ps₁ = ps₂)
    (hcat : cs₁ = cs₂) (hper : per₁ = per₂) (hids : ids₁ = ids₂) :
    assembleReport clock₁ ms₁ ps₁ cs₁ per₁ ids₁ =
      assembleReport clock₂ ms₂ ps₂ cs₂ per₂ ids₂ := by
  subst hc
  subst hm
  subst hp
  subst hcat
  subst hper
  subst hids
  rfl

/-- Witness for the determinism theorem at a concrete input. -/
theorem report_deterministic_witness :
    assembleReport 0 [] [] [] .all [] = assembleReport 0 [] [] [] .all [] :=
  report_deterministic 0 0 [] [] [] [] [] [] .all .all [] [] rfl rfl rfl rfl rfl rfl

/-- C3 counterexample: the period filter's output changes with the internally
read wall clock while the movement list and the period are unchanged, so the
filter is not a function of its declared inputs alone; the current time is
read inside the function, not passed explicitly as the claim states. -/
theorem filter_output_depends_on_internal_clock :
    filterByPeriod 0 [⟨"m1", "p1", .exit, 5, 0⟩] .d7 ≠
      filterByPeriod (8 * msPerDay) [⟨"m1", "p1", .exit, 5, 0⟩] .d7 := by
  decide

/-- C10: applying a movement on the server (POST /api/movements) clamps an
exit at zero: when the exit quantity reaches or exceeds the stored quantity
the result is 0 instead of a negative value, and otherwise the exit subtracts
exactly; the updated quantity is never negative; an entry adds the quantity
unclamped. -/
theorem exit_movement_clamps_at_zero (current qty : ℚ) (hc : 0 ≤ current) (hq : 0 < qty) :
    (current ≤ qty → applyMovementQuantity current .exit qty = 0) ∧
    (qty ≤ current → applyMovementQuantity current .exit qty = current - qty) ∧
    0 ≤ applyMovementQuantity current .exit qty ∧
    applyMovementQuantity current .entry qty = current + qty ∧
    0 ≤ applyMovementQuantity current .entry qty := by
  refine ⟨?_, ?_, ?_, rfl, ?_⟩
  · intro h
    rw [applyMovementQuantity]
    have hle : current - qty ≤ 0 := by linarith
    exact max_eq_left hle
  · intro h
    rw [applyMovementQuantity]
    have hle : 0 ≤ current - qty := by linarith
    exact max_eq_right hle
  · rw [applyMovementQuantity]
    exact le_max_left 0 _
  · rw [applyMovementQuantity]
    linarith

/-- Witness for the clamp theorem at a concrete input. -/
theorem exit_movement_clamps_at_zero_witness :
    ((3:ℚ) ≤ 5 → applyMovementQuantity 3 .exit 5 = 0) ∧
    ((5:ℚ) ≤ 3 → applyMovementQuantity 3 .exit 5 = 3 - 5) ∧
    0 ≤ applyMovementQuantity 3 .exit 5 ∧
    applyMovementQuantity 3 .entry 5 = 3 + 5 ∧
    0 ≤ applyMovementQuantity 3 .entry 5 :=
  exit_movement_clamps_at_zero 3 5 (by norm_num) (by norm_num)

/-- C4: for every ConsumptionEntry the projector emits, the urgency status is
critical exactly when daysUntilEmpty is non-null and at most 7, warning
exactly when non-null and between 8 and 30, and ok exactly when null or above
30; in particular 7 is critical, 8 is warning and 31 is ok. -/
theorem urgency_classification (exits : List Movement) (products : List Product)
    (categories : List Category) (period : Period) (e : ConsumptionEntry)
    (h : e ∈ consumptionData exits products categories period) :
    (e.status = .critical ↔ ∃ d, e.daysUntilEmpty = some d ∧ d ≤ 7) ∧
    (e.status = .warning ↔ ∃ d, e.daysUntilEmpty = some d ∧ 7 < d ∧ d ≤ 30) ∧
    (e.status = .ok ↔
      (e.daysUntilEmpty = none ∨ ∃ d, e.daysUntilEmpty = some d ∧ 30 < d)) := by
  obtain ⟨g, _, he⟩ := mem_consumptionData exits products categories period e h
  have hs :=
    (consumptionEntryFor_some products categories period.days e.product.id g e he).2.2.2.2.2.2
  rw [hs]
  cases hd : e.daysUntilEmpty with
  | none => simp [consumptionStatus]
  | some d =>
    by_cases h7 : d ≤ 7
    · have h7n : ¬ (7 : ℤ) < d := not_lt.mpr h7
      have h30b : d ≤ 30 := by omega
      have h30n : ¬ (30 : ℤ) < d := by omega
      simp [consumptionStatus, h7, h7n, h30b, h30n]
    · by_cases h30 : d ≤ 30
      · have h7l : (7 : ℤ) < d := not_le.mp h7
        have h30n : ¬ (30 : ℤ) < d := not_lt.mpr h30
        simp [consumptionStatus, h7, h30, h7l, h30n]
      · have h30l : (30 : ℤ) < d := not_le.mp h30
        have h7l : (7 : ℤ) < d := by omega
        simp [consumptionStatus, h7, h30, h30l, h7l]

/-- Witness for the urgency theorem: a product of quantity 10 with one exit
of 10 in a 7-day window yields daysUntilEmpty 7 and status critical. -/
theorem urgency_classification_witness :
    ∃ e ∈ consumptionData [⟨"m1", "p1", .exit, 10, 0⟩]
        [⟨"p1", "w", "c1", 10, 0, 2⟩] [] .d7,
      (e.status = .critical ↔ ∃ d, e.daysUntilEmpty = some d ∧ d ≤ 7) ∧
      (e.status = .warning ↔ ∃ d, e.daysUntilEmpty = some d ∧ 7 < d ∧ d ≤ 30) ∧
      (e.status = .ok ↔
        (e.daysUntilEmpty = none ∨ ∃ d, e.daysUntilEmpty = some d ∧ 30 < d)) := by
  have hmem : (⟨⟨"p1", "w", "c1", 10, 0, 2⟩, none, 10, 1, 10 / 7, 10 / 7 * 30, some 7,
      .critical, 10 / 7 * 30 * 2⟩ : ConsumptionEntry) ∈
      consumptionData [⟨"m1", "p1", .exit, 10, 0⟩] [⟨"p1", "w", "c1", 10, 0, 2⟩] [] .d7 := by
    norm_num [consumptionData, exitsByProduct, recordFold, bumpWith, consumptionEntryFor,
      sortDescBy, insertDescBy, sortAsc, insertAsc, Period.days, msPerDay, consumptionStatus,
      List.filterMap_cons, List.filterMap_nil, List.foldr_cons, List.foldr_nil,
      List.foldl_cons, List.foldl_nil, List.find?]
  exact ⟨_, hmem, urgency_classification _ _ _ _ _ hmem⟩

/-- C6: a product appears in the consumption analysis exactly when it has at
least one exit movement in the filtered window and still exists in the
catalog; products with zero exits are omitted, and products deleted from the
catalog are excluded even when their exit movements remain. -/
theorem consumption_membership (filtered : List Movement) (products : List Product)
    (categories : List Category) (period : Period) (pid : String) :
    (∃ e ∈ consumptionData (exitsOf filtered) products categories period,
        e.product.id = pid) ↔
      ((∃ m ∈ filtered, m.type = .exit ∧ m.productId = pid) ∧
        ∃ p ∈ products, p.id = pid) := by
  constructor
  · rintro ⟨e, he, rfl⟩
    obtain ⟨g, hg, hfm⟩ := mem_consumptionData _ _ _ _ e he
    have hchar := (mem_exitsByProduct _ _ _).mp hg
    obtain ⟨⟨m, hm, hmpid⟩, _, _⟩ := hchar
    have hm2 := List.mem_filter.mp hm
    constructor
    · exact ⟨m, hm2.1, by simpa using hm2.2, hmpid⟩
    · exact ⟨e.product, (consumptionEntryFor_some _ _ _ _ _ _ hfm).1, rfl⟩
  · rintro ⟨⟨m, hm, htype, hmpid⟩, hp⟩
    apply consumptionData_covers
    · exact ⟨m, List.mem_filter.mpr ⟨hm, by simp [htype]⟩, hmpid⟩
    · exact hp

/-- C8: every emitted ConsumptionEntry has a non-negative daily average
(movement quantities being positive), daysUntilEmpty is null whenever the
daily average is zero, and the division computing daysUntilEmpty only happens
under the positive-average guard. -/
theorem daily_average_nonneg_and_guarded (exits : List Movement) (products : List Product)
    (categories : List Category) (period : Period) (e : ConsumptionEntry)
    (hpos : ∀ m ∈ exits, 0 ≤ m.quantity)
    (h : e ∈ consumptionData exits products categories period) :
    0 ≤ e.dailyAvg ∧ (e.dailyAvg = 0 → e.daysUntilEmpty = none) ∧
      ∀ d, e.daysUntilEmpty = some d → 0 < e.dailyAvg := by
  obtain ⟨g, hg, he⟩ := mem_consumptionData exits products categories period e h
  have hf := consumptionEntryFor_some products categories period.days e.product.id g e he
  have havg := hf.2.2.2.1
  have hdue := hf.2.2.2.2.2.1
  have htot : 0 ≤ g.total := by
    have hchar := (mem_exitsByProduct _ _ _).mp hg
    rw [hchar.2.1, totalQty_eq_sum]
    apply List.sum_nonneg
    intro x hx
    obtain ⟨m, hm, rfl⟩ := List.mem_map.mp hx
    exact hpos m (List.mem_of_mem_filter hm)
  refine ⟨?_, ?_, ?_⟩
  · rw [havg]
    apply div_nonneg htot
    exact_mod_cast le_trans zero_le_one (le_max_right _ 1)
  · intro hz
    rw [hdue, if_neg]
    rw [hz]
    exact lt_irrefl 0
  · intro d hsome
    by_contra hneg
    rw [hdue, if_neg hneg] at hsome
    cases hsome

/-- Witness for the daily-average theorem at a concrete input. -/
theorem daily_average_nonneg_and_guarded_witness :
    ∃ e ∈ consumptionData [⟨"m1", "p1", .exit, 10, 0⟩]
        [⟨"p1", "w", "c1", 10, 0, 2⟩] [] .d7,
      0 ≤ e.dailyAvg ∧ (e.dailyAvg = 0 → e.daysUntilEmpty = none) ∧
        ∀ d, e.daysUntilEmpty = some d → 0 < e.dailyAvg := by
  have hmem : (⟨⟨"p1", "w", "c1", 10, 0, 2⟩, none, 10, 1, 10 / 7, 10 / 7 * 30, some 7,
      .critical, 10 / 7 * 30 * 2⟩ : ConsumptionEntry) ∈
      consumptionData [⟨"m1", "p1", .exit, 10, 0⟩] [⟨"p1", "w", "c1", 10, 0, 2⟩] [] .d7 := by
    norm_num [consumptionData, exitsByProduct, recordFold, bumpWith, consumptionEntryFor,
      sortDescBy, insertDescBy, sortAsc, insertAsc, Period.days, msPerDay, consumptionStatus,
      List.filterMap_cons, List.filterMap_nil, List.foldr_cons, List.foldr_nil,
      List.foldl_cons, List.foldl_nil, List.find?]
  exact ⟨_, hmem,
    daily_average_nonneg_and_guarded _ _ _ _ _ (by decide) hmem⟩

/-- C5: under the unbounded period, every emitted entry's daily average
divides the total consumed quantity by max(1, ceil((latest - earliest exit
timestamp of that product, in the filtered set) in days)), and the monthly
projection is the daily average times 30. -/
theorem active_days_unbounded_span (exits : List Movement) (products : List Product)
    (categories : List Category) (e : ConsumptionEntry)
    (h : e ∈ consumptionData exits products categories .all) :
    e.dailyAvg = e.totalConsumed /
      ((max 1 (Int.ceil
        (((latest ((exits.filter fun m => decide (m.productId = e.product.id)).map
              Movement.createdAt) -
           earliest ((exits.filter fun m => decide (m.productId = e.product.id)).map
              Movement.createdAt) : ℤ) : ℚ) /
          (msPerDay : ℚ))) : ℤ) : ℚ) ∧
    e.monthlyProjection = e.dailyAvg * 30 := by
  obtain ⟨g, hg, he⟩ := mem_consumptionData exits products categories .all e h
  have hf := consumptionEntryFor_some products categories Period.all.days e.product.id g e he
  have hchar := (mem_exitsByProduct _ _ _).mp hg
  obtain ⟨m, hm, hpid⟩ := hchar.1
  have hfmem : m ∈ exits.filter fun m2 => decide (m2.productId = e.product.id) :=
    List.mem_filter.mpr ⟨hm, by simp [hpid]⟩
  have hdne : g.dates ≠ [] := by
    rw [hchar.2.2]
    intro hnil
    rw [List.map_eq_nil_iff] at hnil
    rw [hnil] at hfmem
    cases hfmem
  have h1 := hf.2.2.2.1
  rw [show Period.all.days = none from rfl, Option.getD_none] at h1
  rw [sortAsc_getLastD g.dates hdne, sortAsc_headD g.dates hdne] at h1
  rw [hchar.2.2] at h1
  rw [max_eq_left (le_max_left 1 _)] at h1
  exact ⟨hf.2.2.1 ▸ h1, hf.2.2.2.2.1⟩

/-- Witness for the unbounded-span theorem: one exit of quantity 10 at a
single instant gives activeDays 1, dailyAverage 10 and monthlyProjection
300. -/
theorem active_days_unbounded_span_witness :
    ∃ e ∈ consumptionData [⟨"m1", "p1", .exit, 10, 5000⟩]
        [⟨"p1", "w", "c1", 100, 5, 2⟩] [] .all,
      (e.dailyAvg = e.totalConsumed /
        ((max 1 (Int.ceil
          (((latest (([(⟨"m1", "p1", .exit, 10, 5000⟩ : Movement)].filter fun m =>
                decide (m.productId = e.product.id)).map Movement.createdAt) -
             earliest (([(⟨"m1", "p1", .exit, 10, 5000⟩ : Movement)].filter fun m =>
                decide (m.productId = e.product.id)).map Movement.createdAt) : ℤ) : ℚ) /
            (msPerDay : ℚ))) : ℤ) : ℚ)) ∧
      e.dailyAvg = 10 ∧ e.monthlyProjection = 300 := by
  have hmem : (⟨⟨"p1", "w", "c1", 100, 5, 2⟩, none, 10, 1, 10, 300, some 10,
      .warning, 600⟩ : ConsumptionEntry) ∈
      consumptionData [⟨"m1", "p1", .exit, 10, 5000⟩] [⟨"p1", "w", "c1", 100, 5, 2⟩] [] .all := by
    norm_num [consumptionData, exitsByProduct, recordFold, bumpWith, consumptionEntryFor,
      sortDescBy, insertDescBy, sortAsc, insertAsc, Period.days, msPerDay, consumptionStatus,
      List.filterMap_cons, List.filterMap_nil, List.foldr_cons, List.foldr_nil,
      List.foldl_cons, List.foldl_nil, List.find?]
  exact ⟨_, hmem, (active_days_unbounded_span _ _ _ _ hmem).1, rfl, rfl⟩

/-- C2 (amended): the per-product ranking is sorted descending by summed
quantity, and every row is a cataloged product with activity in the
partition, carrying exactly that product's summed quantity; however the
aggregator itself truncates the list to its first 10 rows (slice(0,10)), so
it is not the full sorted list and callers do not choose the cut. -/
theorem ranking_sorted_truncated (ms : List Movement) (products : List Product) :
    (topByProduct ms products).length ≤ 10 ∧
    (topByProduct ms products).Pairwise (fun a b => b.qty ≤ a.qty) ∧
    ∀ e ∈ topByProduct ms products,
      e.product ∈ products ∧ (∃ m ∈ ms, m.productId = e.product.id) ∧
        e.qty = totalQty (ms.filter fun m => decide (m.productId = e.product.id)) := by
  refine ⟨?_, ?_, fun e he => mem_topByProduct ms products e he⟩
  · rw [topByProduct]
    exact List.length_take_le 10 _
  · rw [topByProduct, rankingRows]
    exact List.Pairwise.sublist (List.take_sublist _ _) (sorted_sortDescBy _ _)

/-- Eleven cataloged products for the truncation counterexample. -/
def elevenProducts : List Product :=
  [⟨"p01", "n", "c", 0, 0, 1⟩, ⟨"p02", "n", "c", 0, 0, 1⟩, ⟨"p03", "n", "c", 0, 0, 1⟩,
   ⟨"p04", "n", "c", 0, 0, 1⟩, ⟨"p05", "n", "c", 0, 0, 1⟩, ⟨"p06", "n", "c", 0, 0, 1⟩,
   ⟨"p07", "n", "c", 0, 0, 1⟩, ⟨"p08", "n", "c", 0, 0, 1⟩, ⟨"p09", "n", "c", 0, 0, 1⟩,
   ⟨"p10", "n", "c", 0, 0, 1⟩, ⟨"p11", "n", "c", 0, 0, 1⟩]

/-- Eleven exit movements, one per cataloged product, with strictly
decreasing quantities. -/
def elevenMovements : List Movement :=
  [⟨"m01", "p01", .exit, 11, 0⟩, ⟨"m02", "p02", .exit, 10, 0⟩, ⟨"m03", "p03", .exit, 9, 0⟩,
   ⟨"m04", "p04", .exit, 8, 0⟩, ⟨"m05", "p05", .exit, 7, 0⟩, ⟨"m06", "p06", .exit, 6, 0⟩,
   ⟨"m07", "p07", .exit, 5, 0⟩, ⟨"m08", "p08", .exit, 4, 0⟩, ⟨"m09", "p09", .exit, 3, 0⟩,
   ⟨"m10", "p10", .exit, 2, 0⟩, ⟨"m11", "p11", .exit, 1, 0⟩]

/-- C2 counterexample: with eleven cataloged products having exit activity,
product p11 has activity and is cataloged yet does not appear in the ranking:
the aggregator slices the sorted list to its first 10 rows, so the ranking is
not the full per-product list. -/
theorem ranking_omits_eleventh_product :
    (∃ m ∈ elevenMovements, m.productId = "p11") ∧
    (∃ p ∈ elevenProducts, p.id = "p11") ∧
    ∀ e ∈ topByProduct elevenMovements elevenProducts, e.product.id ≠ "p11" := by
  decide

/-- C1 (amended): when every movement of the partition references a cataloged
product and at most 10 products have activity (the grouped per-product record
has at most 10 keys), the ranking reproduces the partition exactly: its
per-product quantities sum to the partition's total quantity and its
per-product values (summed quantity times current price) sum to the
partition's total value. The companion counterexample shows the equality
fails without the hypotheses, because movements of uncataloged products are
dropped from the ranking while still counted in the totals (and the slice
would drop products past the tenth). -/
theorem ranking_conservation_holds_for_cataloged_top10 (ms : List Movement)
    (products : List Product)
    (hfound : ∀ m ∈ ms, ∃ p ∈ products, p.id = m.productId)
    (hcount : (qtyByProduct ms).length ≤ 10) :
    rankingTotalQty (topByProduct ms products) = totalQty ms ∧
    rankingTotalValue (topByProduct ms products) = totalValue products ms := by
  have hkeys : ∀ pq ∈ qtyByProduct ms, ∃ p ∈ products, p.id = pq.1 := by
    intro pq hpq
    have hchar := (mem_qtyByProduct ms pq.1 pq.2).mp hpq
    obtain ⟨m, hm, hpid⟩ := hchar.1
    obtain ⟨p, hp, hid⟩ := hfound m hm
    exact ⟨p, hp, by rw [hid, hpid]⟩
  have hs := filterMap_rank_sums products (qtyByProduct ms) hkeys
  have hlen : (rankingRows ms products).length ≤ 10 :=
    le_trans (rankingRows_length_le ms products) hcount
  have htake : topByProduct ms products = rankingRows ms products := by
    rw [topByProduct, List.take_of_length_le hlen]
  constructor
  · rw [htake, rankingRows, rankingTotalQty_perm _ _ (perm_sortDescBy _ _), hs.1,
      totalQty_eq_sum]
    have hw := qtyByProduct_weightedSum (fun _ => 1) ms
    simpa using hw
  · rw [htake, rankingRows, rankingTotalValue_perm _ _ (perm_sortDescBy _ _), hs.2,
      totalValue_eq_sum]
    exact qtyByProduct_weightedSum (priceOf products) ms

/-- Witness for the conservation theorem at a concrete two-product input. -/
theorem ranking_conservation_witness :
    rankingTotalQty (topByProduct
        [⟨"m1", "p1", .exit, 2, 0⟩, ⟨"m2", "p2", .exit, 3, 0⟩]
        [⟨"p1", "a", "c", 9, 1, 1⟩, ⟨"p2", "b", "c", 9, 1, 2⟩]) =
      totalQty [⟨"m1", "p1", .exit, 2, 0⟩, ⟨"m2", "p2", .exit, 3, 0⟩] ∧
    rankingTotalValue (topByProduct
        [⟨"m1", "p1", .exit, 2, 0⟩, ⟨"m2", "p2", .exit, 3, 0⟩]
        [⟨"p1", "a", "c", 9, 1, 1⟩, ⟨"p2", "b", "c", 9, 1, 2⟩]) =
      totalValue [⟨"p1", "a", "c", 9, 1, 1⟩, ⟨"p2", "b", "c", 9, 1, 2⟩]
        [⟨"m1", "p1", .exit, 2, 0⟩, ⟨"m2", "p2", .exit, 3, 0⟩] :=
  ranking_conservation_holds_for_cataloged_top10 _ _ (by decide) (by decide)

/-- C1 counterexample: a single exit movement whose product is no longer
cataloged contributes to totalExitQty but is dropped from the exit ranking,
so the per-product ranking totals do not sum to the partition total. -/
theorem ranking_conservation_fails_for_uncataloged_product :
    rankingTotalQty (topByProduct [⟨"m1", "ghost", .exit, 5, 0⟩] []) ≠
      totalQty [(⟨"m1", "ghost", .exit, 5, 0⟩ : Movement)] := by
  norm_num [topByProduct, rankingRows, qtyByProduct, recordFold, bumpWith, sortDescBy,
    rankingTotalQty, totalQty, List.filterMap_cons, List.filterMap_nil, List.foldr_cons,
    List.foldr_nil, List.foldl_cons, List.foldl_nil, List.find?]

/-! ### Report assembly on empty catalogs -/

theorem topByProduct_nil_products (ms : List Movement) : topByProduct ms [] = [] := by
  rw [topByProduct, rankingRows]
  have h : ((qtyByProduct ms).filterMap fun pq =>
      (List.find? (fun p => decide (p.id = pq.1)) []).map fun p =>
        (⟨p, pq.2⟩ : RankEntry)) = [] := by
    rw [List.filterMap_eq_nil_iff]
    intro pq _
    rfl
  rw [h]
  rfl

theorem consumptionData_nil_products (exits : List Movement) (categories : List Category)
    (period : Period) : consumptionData exits [] categories period = [] := by
  rw [consumptionData]
  have h : ((exitsByProduct exits).filterMap fun pg =>
      consumptionEntryFor [] categories period.days pg.1 pg.2) = [] := by
    rw [List.filterMap_eq_nil_iff]
    intro pg _
    rfl
  rw [h]
  rfl

theorem totalValue_nil_products (ms : List Movement) : totalValue [] ms = 0 := by
  rw [totalValue_eq_sum]
  simp [priceOf]

theorem generalSummary_nil : generalSummary [] = ⟨0, 0, 0, 0⟩ := rfl

theorem categoryBreakdown_nil_categories (products : List Product) :
    categoryBreakdown [] products = [] := rfl

theorem categoryBreakdown_nil_products (cats : List Category) :
    categoryBreakdown cats [] = [] := by
  have hfilter : ∀ l : List CategoryBreakdownEntry, (∀ c ∈ l, c.productCount = 0) →
      (l.filter fun c => decide (c.productCount > 0)) = [] := by
    intro l hl
    rw [List.filter_eq_nil_iff]
    intro c hc
    simp [hl c hc]
  rw [categoryBreakdown, hfilter _ ?_]
  · rfl
  · intro c hc
    obtain ⟨cat, _, rfl⟩ := List.mem_map.mp hc
    rfl

/-- C9 (amended): report assembly is total and degrades gracefully on empty
catalogs: with an empty product list the rankings and consumption analysis
are empty, the monetary totals are zero, the category breakdown is empty and
the stock summary is all zeros with the average-price division guarded to 0;
with an empty category list the category breakdown is empty. The companion
counterexample shows the claim as stated (empty rankings and zero totals
whenever products or categories is empty) does not hold: an empty category
list leaves rankings and quantity totals untouched. -/
theorem empty_catalog_report_wellformed (clock : ℤ) (movements : List Movement)
    (categories : List Category) (period : Period) (ids : List String) :
    ((assembleReport clock movements [] categories period ids).topEntry = [] ∧
     (assembleReport clock movements [] categories period ids).topExit = [] ∧
     (assembleReport clock movements [] categories period ids).consumption = [] ∧
     (assembleReport clock movements [] categories period ids).entryValue = 0 ∧
     (assembleReport clock movements [] categories period ids).exitValue = 0 ∧
     (assembleReport clock movements [] categories period ids).breakdown = [] ∧
     (assembleReport clock movements [] categories period ids).general = ⟨0, 0, 0, 0⟩) ∧
    ∀ products : List Product,
      (assembleReport clock movements products [] period ids).breakdown = [] := by
  refine ⟨⟨?_, ?_, ?_, ?_, ?_, ?_, ?_⟩, ?_⟩
  · simp only [assembleReport]
    exact topByProduct_nil_products _
  · simp only [assembleReport]
    exact topByProduct_nil_products _
  · simp only [assembleReport]
    exact consumptionData_nil_products _ _ _
  · simp only [assembleReport]
    exact totalValue_nil_products _
  · simp only [assembleReport]
    exact totalValue_nil_products _
  · simp only [assembleReport]
    exact categoryBreakdown_nil_products _
  · simp only [assembleReport]
    exact generalSummary_nil
  · intro products
    simp only [assembleReport]
    exact categoryBreakdown_nil_categories _

/-- C9 counterexample: with an empty category list but a cataloged product
and an entry movement, the assembled report has a non-empty entry ranking and
a non-zero entry total, so the claim that rankings are empty and totals zero
whenever products or categories is empty fails. -/
theorem nonempty_ranking_with_empty_categories :
    (assembleReport 0 [⟨"m1", "p1", .entry, 5, 0⟩]
        [⟨"p1", "w", "c1", 9, 1, 2⟩] [] .all []).topEntry ≠ [] ∧
    (assembleReport 0 [⟨"m1", "p1", .entry, 5, 0⟩]
        [⟨"p1", "w", "c1", 9, 1, 2⟩] [] .all []).totalEntryQty ≠ 0 := by
  constructor
  · decide
  · norm_num [assembleReport, applyProductFilter, filterByPeriod, entriesOf, totalQty,
      Period.days, List.foldl_cons, List.foldl_nil]

end StockControl
